import Mathlib

set_option linter.unnecessarySeqFocus false

/-!
Verification of the EcoCode hotspot analysis engine (`backend/main.py`).

The Python program statically analyses the syntax tree of a source file
and, for every function definition, computes structural signals (loop
nesting depth, self-recursion, expensive calls, loop anti-patterns),
combines them into a bounded score, a category and reason strings,
attaches heuristic energy/cost figures, and returns the per-function
records sorted by score descending together with a summary.  Parsing is an
external collaborator whose failure is caught and converted into a
structured error result.

The shallow embedding below mirrors `backend/main.py`:
* `Node` models the Python `ast` node kinds the analyser inspects
  (`FunctionDef`, `For`, `While`, `Call`, `Attribute`, `Name`,
  `AugAssign`), with `Node.other` standing for every other node kind,
  which the analyser only ever traverses through;
* `ast_walk` models `ast.walk` (breadth-first: the node itself, then its
  children level by level, children in field order);
* `get_max_loop_depth`, `is_recursive`, `detect_expensive_calls`,
  `detect_loop_issues`, and `analyze` are direct translations of the
  functions of the same names; the `list(set(...))` deduplication of
  Python is modelled by `List.dedup` (the claims below depend only on
  membership and duplicate-freeness, never on the unspecified set order);
* Python floats are modelled by exact rationals, and the Python 3 `round`
  (round-half-to-even at a decimal position) by `pyRound`;
* `list.sort(key=..., reverse=True)` — a stable descending sort — is
  modelled by `List.insertionSort` with the relation `scoreGE` (stable
  sorts by the same key agree on their output, so this is behaviourally
  exact).
-/

namespace EcoCode

/-- Binary operator tag of an `ast.AugAssign` node: `ast.Add` versus any
other operator (the analyser only ever tests for `ast.Add`). -/
inductive Op where
  | add
  | otherOp
  deriving DecidableEq, Repr

/-- Python AST nodes, restricted to the kinds `backend/main.py` inspects.
The constructor `other` covers every remaining node kind (`Module`, `If`,
`Return`, `BinOp`, `Constant`, ...), which the analyser only traverses
through; its list holds the children of the node in field order, as
`ast.iter_child_nodes` yields them.  `call f args` has the callee `f`
first among its children, matching the `func` field coming first in
`ast.Call`; `attrAccess` models `ast.Attribute`. -/
inductive Node where
  | functionDef (name : String) (children : List Node)
  | forLoop (children : List Node)
  | whileLoop (children : List Node)
  | call (func : Node) (args : List Node)
  | attrAccess (value : Node) (attrName : String)
  | name (id : String)
  | augAssign (target : Node) (op : Op) (value : Node)
  | other (children : List Node)

/-- Children of a node, in the order `ast.iter_child_nodes` yields them. -/
def Node.children : Node → List Node
  | .functionDef _ cs => cs
  | .forLoop cs => cs
  | .whileLoop cs => cs
  | .call f args => f :: args
  | .attrAccess v _ => [v]
  | .name _ => []
  | .augAssign t _ v => [t, v]
  | .other cs => cs

mutual
/-- Size measure used for termination of traversals. -/
def Node.size : Node → Nat
  | .functionDef _ cs => 1 + sizeL cs
  | .forLoop cs => 1 + sizeL cs
  | .whileLoop cs => 1 + sizeL cs
  | .call f args => 1 + Node.size f + sizeL args
  | .attrAccess v _ => 1 + Node.size v
  | .name _ => 1
  | .augAssign t _ v => 2 + Node.size t + Node.size v
  | .other cs => 1 + sizeL cs

/-- Size measure of a list of nodes. -/
def sizeL : List Node → Nat
  | [] => 0
  | n :: ns => 1 + Node.size n + sizeL ns
end

/-- Model of `ast.walk` acting on a work list: breadth-first traversal,
yielding each node before its children, children appended at the back of
the queue.  This is exactly the CPython `ast.walk` generator. -/
def walkFrom : List Node → List Node
  | [] => []
  | n :: rest => n :: walkFrom (rest ++ n.children)
  termination_by q => sizeL q
  decreasing_by
    have happ : ∀ l₁ l₂ : List Node, sizeL (l₁ ++ l₂) = sizeL l₁ + sizeL l₂ := by
      intro l₁ l₂
      induction l₁ with
      | nil => simp [sizeL]
      | cons a as ih => simp only [List.cons_append, List.append_eq, sizeL, ih]; omega
    have hle : ∀ m : Node, sizeL m.children ≤ m.size := by
      intro m
      cases m <;> simp [Node.children, Node.size, sizeL] <;> omega
    simp only [sizeL, happ]
    have := hle n
    omega

/-- Model of `ast.walk(node)`: the node itself followed by all its
descendants in breadth-first order. -/
def ast_walk (n : Node) : List Node := walkFrom [n]

/-- Depth-first pre-order enumeration of a subtree (the node, then each
subtree of a child in order).  This is not what `ast.walk` does; it is
used to state and settle the ordering claim about function extraction. -/
def dfsPre (n : Node) : List Node :=
  n :: (n.children.attach.map fun c => dfsPre c.val).flatten
  termination_by n.size
  decreasing_by
    have hmem : ∀ (m : Node) (l : List Node), m ∈ l → 1 + m.size ≤ sizeL l := by
      intro m l hm
      induction l with
      | nil => cases hm
      | cons a as ih =>
        rcases List.mem_cons.mp hm with h | h
        · subst h; simp only [sizeL]; omega
        · have := ih h; simp only [sizeL]; omega
    have hle : ∀ m : Node, sizeL m.children ≤ m.size := by
      intro m
      cases m <;> simp [Node.children, Node.size, sizeL] <;> omega
    have h1 := hmem c.val n.children c.property
    have h2 := hle n
    omega

/-- Test for a loop node (`ast.For` or `ast.While`). -/
def Node.isLoop : Node → Bool
  | .forLoop _ => true
  | .whileLoop _ => true
  | _ => false

/-- Test for an `ast.FunctionDef` node. -/
def Node.isFunctionDef : Node → Bool
  | .functionDef _ _ => true
  | _ => false

/-- Maximum of a list of naturals (0 for the empty list). -/
def maxL : List Nat → Nat
  | [] => 0
  | x :: xs => max x (maxL xs)

/-- Translation of the inner `visit(node, depth)` of `get_max_loop_depth`:
entering a `For`/`While` increments the depth passed to that subtree only;
`max_depth` is updated (to the incremented depth) exactly at loop nodes.
The returned value is the largest update performed in this subtree (0 when
no loop is visited, matching the initial `max_depth = 0`). -/
def visitMax (node : Node) (depth : Nat) : Nat :=
  max (if node.isLoop then depth + 1 else 0)
    (maxL (node.children.attach.map fun c =>
      visitMax c.val (if node.isLoop then depth + 1 else depth)))
  termination_by node.size
  decreasing_by
    have hmem : ∀ (m : Node) (l : List Node), m ∈ l → 1 + m.size ≤ sizeL l := by
      intro m l hm
      induction l with
      | nil => cases hm
      | cons a as ih =>
        rcases List.mem_cons.mp hm with h | h
        · subst h; simp only [sizeL]; omega
        · have := ih h; simp only [sizeL]; omega
    have hle : ∀ m : Node, sizeL m.children ≤ m.size := by
      intro m
      cases m <;> simp [Node.children, Node.size, sizeL] <;> omega
    have h1 := hmem c.val node.children c.property
    have h2 := hle node
    omega

/-- Translation of `get_max_loop_depth(func_node)` from `backend/main.py`. -/
def get_max_loop_depth (func_node : Node) : Nat := visitMax func_node 0

/-- The `name` attribute of a `FunctionDef` node (`func_node.name`); the
analyser only ever reads it on function-definition nodes. -/
def Node.funcName : Node → String
  | .functionDef nm _ => nm
  | _ => ""

/-- Translation of `is_recursive(func_node)` from `backend/main.py`: some
walked node is a `Call` whose callee is a bare `Name` equal to the own
name of the function. -/
def is_recursive (func_node : Node) : Bool :=
  (ast_walk func_node).any fun n =>
    match n with
    | .call (.name id) _ => id == func_node.funcName
    | _ => false

/-- Translation of `EXPENSIVE_FUNCS` from `backend/main.py`. -/
def EXPENSIVE_FUNCS : List String := ["sorted", "open", "print"]

/-- Labels one walked node contributes in `detect_expensive_calls`: for a
`Call` node, the identifier of the callee when the callee is a bare `Name`
in `EXPENSIVE_FUNCS`, and the label `"sort()"` when the callee is an
attribute access with method name `"sort"` (both tests run in the source;
a callee is never both a `Name` and an `Attribute`). -/
def expensiveLabelsOf : Node → List String
  | .call fn _ =>
      (match fn with
       | .name id => if id ∈ EXPENSIVE_FUNCS then [id] else []
       | _ => []) ++
      (match fn with
       | .attrAccess _ a => if a = "sort" then ["sort()"] else []
       | _ => [])
  | _ => []

/-- Translation of `detect_expensive_calls(func_node)` from
`backend/main.py`: collect labels over the whole walk, then
`list(set(found))`. -/
def detect_expensive_calls (func_node : Node) : List String :=
  ((ast_walk func_node).flatMap expensiveLabelsOf).dedup

/-- Labels one node inside a loop contributes in `detect_loop_issues`: an
`AugAssign` with `Add` operator flags string concatenation, a `Call`
through an attribute named `"append"` flags list append (both tests run in
the source; a node is never both an `AugAssign` and a `Call`). -/
def loopIssueLabelsOf : Node → List String
  | .augAssign _ op _ =>
      if op = Op.add then ["string concatenation in loop (+=)"] else []
  | .call fn _ =>
      (match fn with
       | .attrAccess _ a =>
            if a = "append" then ["list append in loop (.append)"] else []
       | _ => [])
  | _ => []

/-- Translation of `detect_loop_issues(func_node)` from `backend/main.py`:
for every `For`/`While` node found by the walk, walk the whole subtree of
that loop and collect the issue labels; finally `list(set(issues))`. -/
def detect_loop_issues (func_node : Node) : List String :=
  ((ast_walk func_node).flatMap fun n =>
    if n.isLoop then (ast_walk n).flatMap loopIssueLabelsOf else []).dedup

/-- Round-half-to-even to the nearest integer over exact rationals: the
integer-rounding mode of the Python 3 `round`. -/
def roundHalfEven (x : ℚ) : ℤ :=
  if x - Int.floor x < 1/2 then Int.floor x
  else if 1/2 < x - Int.floor x then Int.floor x + 1
  else if Int.floor x % 2 = 0 then Int.floor x else Int.floor x + 1

/-- Model of the Python 3 `round(x, n)` (round-half-to-even at the n-th
decimal) over exact rationals.  The Python code applies it to floats; for
every value the analyser feeds it (integer scores 0–100 through the rate
constants of the estimator) the float computation and the exact rational
computation agree, all intermediate values lying far from rounding
boundaries relative to float error. -/
def pyRound (x : ℚ) (n : ℕ) : ℚ := (roundHalfEven (x * 10 ^ n) : ℚ) / 10 ^ n

/-- Constant `ELECTRICITY_RATE_PER_KWH` from `analyze` in
`backend/main.py`. -/
def ELECTRICITY_RATE_PER_KWH : ℚ := 8.0

/-- Constant `JOULES_PER_SCORE_POINT` from `analyze` in
`backend/main.py`. -/
def JOULES_PER_SCORE_POINT : ℚ := 0.05

/-- Translation of
`estimated_joules_per_run = round(score * JOULES_PER_SCORE_POINT, 4)`. -/
def estimated_joules_per_run (score : ℕ) : ℚ :=
  pyRound (score * JOULES_PER_SCORE_POINT) 4

/-- Translation of `estimated_cost_per_run =
(estimated_joules_per_run / 3_600_000) * ELECTRICITY_RATE_PER_KWH`. -/
def estimated_cost_per_run (score : ℕ) : ℚ :=
  estimated_joules_per_run score / 3600000 * ELECTRICITY_RATE_PER_KWH

/-- Translation of
`estimated_cost_per_1000_runs = round(estimated_cost_per_run * 1000, 6)`. -/
def estimated_cost_per_1000_runs (score : ℕ) : ℚ :=
  pyRound (estimated_cost_per_run score * 1000) 6

/-- Translation of
`estimated_cost_per_1m_runs = round(estimated_cost_per_run * 1_000_000, 4)`. -/
def estimated_cost_per_1m_runs (score : ℕ) : ℚ :=
  pyRound (estimated_cost_per_run score * 1000000) 4

/-- Score computation of `analyze` (lines 144–150): start from
`loop_depth * 12`, add 20 when recursive, add 15 per distinct expensive
call and 10 per distinct loop issue, then clamp with `min(score, 100)`. -/
def compute_score (loop_depth : Nat) (recursive : Bool)
    (num_expensive num_issues : Nat) : Nat :=
  min (loop_depth * 12 + (if recursive then 20 else 0)
        + num_expensive * 15 + num_issues * 10) 100

/-- Reasons list of `analyze` (lines 152–165), built in a fixed order:
loop-nesting note, recursion note, expensive-calls note, then one line per
loop issue. -/
def build_reasons (loop_depth : Nat) (recursive : Bool)
    (expensive_calls loop_issues : List String) : List String :=
  (if 0 < loop_depth then ["Loop nesting depth = " ++ toString loop_depth] else []) ++
  (if recursive then ["Recursion detected"] else []) ++
  (if expensive_calls.isEmpty then []
   else ["Expensive calls: " ++ String.intercalate ", " expensive_calls]) ++
  loop_issues

/-- Category computation of `analyze` (lines 167–176), kept verbatim: the
condition of the second branch is behaviourally inert because the final
`else` also yields `"CPU"`. -/
def compute_category (loop_depth : Nat) (recursive : Bool)
    (expensive_calls : List String) : String :=
  if "open" ∈ expensive_calls then "I/O"
  else if 2 ≤ loop_depth ∨ recursive = true ∨ "sorted" ∈ expensive_calls
          ∨ "sort()" ∈ expensive_calls then "CPU"
  else "CPU"

/-- One hotspot record of the `analyze` output.  The source-location
fields (`start_line`, `end_line`, `code_snippet`) are copied verbatim from
parser metadata that the `Node` model does not carry and no analysed
property depends on; they are omitted here. -/
structure Hotspot where
  name : String
  score : Nat
  category : String
  reasons : List String
  estimated_joules_per_run : ℚ
  estimated_cost_per_1000_runs : ℚ
  estimated_cost_per_1m_runs : ℚ
  deriving DecidableEq

/-- Body of the per-function loop of `analyze` (lines 128–200): compute
the four signals, the score, the reasons, the category and the
energy/cost figures for one function node. -/
def analyzeFunction (func : Node) : Hotspot :=
  let loop_depth := get_max_loop_depth func
  let recursive := is_recursive func
  let expensive_calls := detect_expensive_calls func
  let loop_issues := detect_loop_issues func
  let score := compute_score loop_depth recursive expensive_calls.length loop_issues.length
  { name := func.funcName
    score := score
    category := compute_category loop_depth recursive expensive_calls
    reasons := build_reasons loop_depth recursive expensive_calls loop_issues
    estimated_joules_per_run := estimated_joules_per_run score
    estimated_cost_per_1000_runs := estimated_cost_per_1000_runs score
    estimated_cost_per_1m_runs := estimated_cost_per_1m_runs score }

/-- Ordering used by `hotspots.sort(key=lambda x: x["score"], reverse=True)`:
descending by score.  The Python sort is stable; `List.insertionSort` with
this relation is the stable descending-by-score sort (stable sorts by the
same key produce identical output). -/
def scoreGE (a b : Hotspot) : Prop := b.score ≤ a.score

instance : DecidableRel scoreGE := fun _ b => Nat.decLe b.score _

instance : IsTotal Hotspot scoreGE := ⟨fun a b => Nat.le_total b.score a.score⟩

instance : IsTrans Hotspot scoreGE := ⟨fun _ _ _ h1 h2 => Nat.le_trans h2 h1⟩

/-- Summary block of the `analyze` response (the constant fields
`language`, `electricity_rate_per_kwh` and the fixed disclaimer note carry
no analysed content and are omitted). -/
structure Summary where
  filename : String
  function_count : Nat
  hotspot_count : Nat
  deriving DecidableEq

/-- Failure of the external parsing collaborator `ast.parse`: a syntax
error carrying a line number and message, or any other exception carrying
a message. -/
inductive ParseFailure where
  | syntaxError (lineno : Nat) (msg : String)
  | generic (msg : String)

/-- Error strings `analyze` builds in its two `except` branches (lines 104
and 116). -/
def parseFailureString : ParseFailure → String
  | .syntaxError lineno msg => "SyntaxError at line " ++ toString lineno ++ ": " ++ msg
  | .generic msg => "Invalid Python code: " ++ msg

/-- JSON-shaped result of `analyze`: summary, hotspot list, and the
`error` field, present exactly on the parse-failure paths. -/
structure AnalyzeResult where
  summary : Summary
  hotspots : List Hotspot
  error : Option String

/-- Function extraction of `analyze` (lines 119–123): all `FunctionDef`
nodes that `ast.walk` yields, in walk order. -/
def extract_functions (tree : Node) : List Node :=
  (ast_walk tree).filter Node.isFunctionDef

/-- Translation of `analyze(req)` from `backend/main.py`.  The external
`ast.parse` call is the `parsed` argument: `Except.error` is the
caught-exception path (lines 94–117), `Except.ok` the successful path
(lines 119–215). -/
def analyze (filename : String) (parsed : Except ParseFailure Node) : AnalyzeResult :=
  match parsed with
  | .error e =>
      { summary := { filename := filename, function_count := 0, hotspot_count := 0 }
        hotspots := []
        error := some (parseFailureString e) }
  | .ok tree =>
      let function_nodes := extract_functions tree
      let hotspots := (function_nodes.map analyzeFunction).insertionSort scoreGE
      { summary := { filename := filename
                     function_count := function_nodes.length
                     hotspot_count := hotspots.length }
        hotspots := hotspots
        error := none }

/-- Specification-side depth measure, written from the words of the spec:
the loop nesting depth of a subtree is the maximum, over all points of the
subtree, of the number of `For`/`While` nodes enclosing that point
(counting the point itself when it is a loop).  Structurally: a loop
contributes 1 plus the deepest nesting among its children, any other node
passes the maximum of its children through. -/
def loopNesting (n : Node) : Nat :=
  (if n.isLoop then 1 else 0) +
    maxL (n.children.attach.map fun c => loopNesting c.val)
  termination_by n.size
  decreasing_by
    have hmem : ∀ (m : Node) (l : List Node), m ∈ l → 1 + m.size ≤ sizeL l := by
      intro m l hm
      induction l with
      | nil => cases hm
      | cons a as ih =>
        rcases List.mem_cons.mp hm with h | h
        · subst h; simp only [sizeL]; omega
        · have := ih h; simp only [sizeL]; omega
    have hle : ∀ m : Node, sizeL m.children ≤ m.size := by
      intro m
      cases m <;> simp [Node.children, Node.size, sizeL] <;> omega
    have h1 := hmem c.val n.children c.property
    have h2 := hle n
    omega

/-- Example function with an empty body statement: no loops, no recursion,
no matches. -/
def exEmptyFn : Node := Node.functionDef "f" [Node.other []]

/-- Example function whose body calls `open(...)`. -/
def exOpenFn : Node :=
  Node.functionDef "f" [Node.other [Node.call (Node.name "open") []]]

/-- Example function whose only loop sits inside a nested function
definition: `def f(): def g(): while ...`. -/
def exNestedFnLoop : Node :=
  Node.functionDef "f" [Node.functionDef "g" [Node.whileLoop [Node.other []]]]

/-- Example function with three sequentially nested `while` loops. -/
def exThreeWhile : Node :=
  Node.functionDef "f" [Node.whileLoop [Node.whileLoop [Node.whileLoop [Node.other []]]]]

/-- Example tree with a nested function: `def f(): def h(): ...` followed
by `def g(): ...` — breadth-first and depth-first extraction orders
differ on it. -/
def exBfsTree : Node :=
  Node.other [Node.functionDef "f" [Node.functionDef "h" []],
              Node.functionDef "g" []]

/-- Example tree containing no function definition. -/
def exNoFnTree : Node := Node.other [Node.forLoop [Node.name "x"]]

/-- Example function calling `sorted(...)` twice. -/
def exSortedTwice : Node :=
  Node.functionDef "f"
    [Node.other [Node.call (Node.name "sorted") [Node.name "xs"]],
     Node.other [Node.call (Node.name "sorted") [Node.name "ys"]]]

/-- Example recursive function: `def f(): f()`. -/
def exRecFn : Node :=
  Node.functionDef "f" [Node.other [Node.call (Node.name "f") []]]

/-- Example function with a two-level nested loop whose inner body calls
`.append(...)`. -/
def exAppendLoop : Node :=
  Node.functionDef "f"
    [Node.forLoop [Node.forLoop
      [Node.other [Node.call (Node.attrAccess (Node.name "out") "append")
        [Node.name "x"]]]]]

theorem sizeL_append (l₁ l₂ : List Node) : sizeL (l₁ ++ l₂) = sizeL l₁ + sizeL l₂ := by
  induction l₁ with
  | nil => simp [sizeL]
  | cons a as ih => simp only [List.cons_append, List.append_eq, sizeL, ih]; omega

theorem sizeL_children_le (n : Node) : sizeL n.children ≤ n.size := by
  cases n <;> simp [Node.children, Node.size, sizeL] <;> omega

theorem one_add_size_le_of_mem {c : Node} {l : List Node} (h : c ∈ l) :
    1 + c.size ≤ sizeL l := by
  induction l with
  | nil => cases h
  | cons a as ih =>
    rcases List.mem_cons.mp h with h | h
    · subst h; simp only [sizeL]; omega
    · have := ih h; simp only [sizeL]; omega

theorem size_lt_of_mem_children {c n : Node} (h : c ∈ n.children) : c.size < n.size := by
  have h1 := one_add_size_le_of_mem h
  have h2 := sizeL_children_le n
  omega

/-- Structural induction over `Node` through the uniform `children`
accessor. -/
theorem node_ind (P : Node → Prop) (h : ∀ n, (∀ c ∈ n.children, P c) → P n)
    (n : Node) : P n := by
  have main : ∀ s, ∀ m : Node, m.size ≤ s → P m := by
    intro s
    induction s with
    | zero =>
      intro m hm
      exact h m fun c hc => absurd (size_lt_of_mem_children hc) (by omega)
    | succ s ih =>
      intro m hm
      exact h m fun c hc => ih c (by have := size_lt_of_mem_children hc; omega)
  exact main n.size n le_rfl

theorem walkFrom_nil : walkFrom [] = [] := by
  unfold walkFrom
  rfl

theorem walkFrom_cons (n : Node) (rest : List Node) :
    walkFrom (n :: rest) = n :: walkFrom (rest ++ n.children) := by
  conv_lhs => unfold walkFrom

theorem dfsPre_def (n : Node) : dfsPre n = n :: n.children.flatMap dfsPre := by
  unfold dfsPre
  simp [List.flatMap]

/-- The breadth-first walk enumerates, up to order, exactly the depth-first
pre-order enumerations of the queued subtrees. -/
theorem walkFrom_perm (q : List Node) : (walkFrom q).Perm (q.flatMap dfsPre) := by
  induction q using walkFrom.induct with
  | case1 => simp [walkFrom_nil]
  | case2 n rest ih =>
    rw [walkFrom_cons]
    refine List.Perm.trans (List.Perm.cons n ih) ?_
    rw [List.flatMap_append, List.flatMap_cons, dfsPre_def]
    simp only [List.cons_append]
    exact List.Perm.cons n List.perm_append_comm

theorem ast_walk_perm (n : Node) : (ast_walk n).Perm (dfsPre n) := by
  have h := walkFrom_perm [n]
  simpa [ast_walk] using h

theorem mem_ast_walk {m n : Node} : m ∈ ast_walk n ↔ m ∈ dfsPre n :=
  (ast_walk_perm n).mem_iff

theorem le_maxL_of_mem {x : Nat} {l : List Nat} (h : x ∈ l) : x ≤ maxL l := by
  induction l with
  | nil => cases h
  | cons a as ih =>
    rcases List.mem_cons.mp h with h | h
    · subst h; simp [maxL]
    · have := ih h; simp only [maxL]; omega

theorem maxL_eq_zero {l : List Nat} (h : ∀ x ∈ l, x = 0) : maxL l = 0 := by
  induction l with
  | nil => rfl
  | cons a as ih =>
    have ha := h a (List.mem_cons_self a as)
    have has := ih fun x hx => h x (List.mem_cons_of_mem a hx)
    simp [maxL, ha, has]

theorem visitMax_eq (n : Node) (d : Nat) :
    visitMax n d = max (if n.isLoop then d + 1 else 0)
      (maxL (n.children.map fun c => visitMax c (if n.isLoop then d + 1 else d))) := by
  conv_lhs => unfold visitMax
  simp

theorem loopNesting_def (n : Node) :
    loopNesting n = (if n.isLoop then 1 else 0) + maxL (n.children.map loopNesting) := by
  conv_lhs => unfold loopNesting
  simp

theorem any_dfsPre (p : Node → Bool) (n : Node) :
    (dfsPre n).any p = (p n || n.children.any fun c => (dfsPre c).any p) := by
  rw [dfsPre_def]
  simp

theorem loopNesting_eq_zero {n : Node} (h : (dfsPre n).any Node.isLoop = false) :
    loopNesting n = 0 := by
  induction n using node_ind with
  | _ n ih =>
    rw [any_dfsPre] at h
    rcases Bool.or_eq_false_iff.mp h with ⟨h1, h2⟩
    rw [loopNesting_def, h1]
    have hz : maxL (n.children.map loopNesting) = 0 := by
      apply maxL_eq_zero
      intro x hx
      rcases List.mem_map.mp hx with ⟨c, hc, rfl⟩
      exact ih c hc (List.any_eq_false.mpr (fun m hm => by
        have := List.any_eq_false.mp h2 c hc
        intro hmp
        exact this (List.any_eq_true.mpr ⟨m, hm, hmp⟩)))
    simp [hz]

theorem loopNesting_pos {n : Node} (h : (dfsPre n).any Node.isLoop = true) :
    1 ≤ loopNesting n := by
  induction n using node_ind with
  | _ n ih =>
    rw [any_dfsPre] at h
    rw [loopNesting_def]
    rcases Bool.or_eq_true_iff.mp h with h1 | h2
    · simp [h1]
    · rcases List.any_eq_true.mp h2 with ⟨c, hc, hcl⟩
      have h1 := ih c hc hcl
      have h2' : loopNesting c ≤ maxL (n.children.map loopNesting) :=
        le_maxL_of_mem (List.mem_map.mpr ⟨c, hc, rfl⟩)
      omega

theorem maxL_map_ite (d : Nat) (l : List Node) (g : Node → Nat) (b : Node → Bool)
    (h0 : ∀ c ∈ l, b c = false → g c = 0) :
    maxL (l.map fun c => if b c then d + g c else 0)
      = if l.any b then d + maxL (l.map g) else 0 := by
  induction l with
  | nil => simp [maxL]
  | cons c cs ih =>
    have ih' := ih fun x hx hb => h0 x (List.mem_cons_of_mem _ hx) hb
    simp only [List.map_cons, maxL, List.any_cons, ih']
    have hz : cs.any b = false → maxL (cs.map g) = 0 := by
      intro ha
      apply maxL_eq_zero
      intro x hx
      rcases List.mem_map.mp hx with ⟨y, hy, rfl⟩
      exact h0 y (List.mem_cons_of_mem _ hy) (by simpa using List.any_eq_false.mp ha y hy)
    rcases Bool.eq_false_or_eq_true (b c) with hb | hb <;>
      rcases Bool.eq_false_or_eq_true (cs.any b) with ha | ha
    · simp [hb, ha] <;> omega
    · have h2 := hz ha
      simp [hb, ha, h2]
    · have h1 := h0 c (List.mem_cons_self c cs) hb
      simp [hb, ha, h1]
    · have h1 := h0 c (List.mem_cons_self c cs) hb
      have h2 := hz ha
      simp [hb, ha, h1, h2]

/-- The `visit` worker equals the specification measure: on a subtree that
contains a loop it returns the incoming depth plus the nesting measure of
the subtree, otherwise it performs no update and returns 0. -/
theorem visitMax_spec (n : Node) :
    ∀ d, visitMax n d =
      if (dfsPre n).any Node.isLoop then d + loopNesting n else 0 := by
  induction n using node_ind with
  | _ n ih =>
    intro d
    rw [visitMax_eq]
    rw [List.map_congr_left fun c hc => ih c hc (if n.isLoop then d + 1 else d)]
    rw [maxL_map_ite (if n.isLoop then d + 1 else d) n.children loopNesting
      (fun c => (dfsPre c).any Node.isLoop)
      (fun c _ hc => loopNesting_eq_zero hc)]
    rw [any_dfsPre, loopNesting_def]
    have hz : n.children.any (fun c => (dfsPre c).any Node.isLoop) = false →
        maxL (n.children.map loopNesting) = 0 := by
      intro ha
      apply maxL_eq_zero
      intro x hx
      rcases List.mem_map.mp hx with ⟨y, hy, rfl⟩
      exact loopNesting_eq_zero (by simpa using List.any_eq_false.mp ha y hy)
    rcases Bool.eq_false_or_eq_true n.isLoop with hl | hl <;>
      rcases Bool.eq_false_or_eq_true
        (n.children.any fun c => (dfsPre c).any Node.isLoop) with ha | ha
    · simp [hl, ha]
      omega
    · have h2 := hz ha
      simp [hl, ha, h2]
    · simp [hl, ha]
    · have h2 := hz ha
      simp [hl, ha, h2]

/-- The translated `get_max_loop_depth` computes exactly the nesting
measure of the specification. -/
theorem get_max_loop_depth_eq (f : Node) : get_max_loop_depth f = loopNesting f := by
  show visitMax f 0 = loopNesting f
  rw [visitMax_spec f 0]
  rcases Bool.eq_false_or_eq_true ((dfsPre f).any Node.isLoop) with h | h
  · rw [h]
    simp
  · rw [h, loopNesting_eq_zero h]
    rfl

/-- A function subtree in which no walked node is a loop has depth 0. -/
theorem get_max_loop_depth_zero (f : Node) (h : ∀ m ∈ ast_walk f, m.isLoop = false) :
    get_max_loop_depth f = 0 := by
  rw [get_max_loop_depth_eq]
  apply loopNesting_eq_zero
  exact List.any_eq_false.mpr fun m hm => by
    have := h m (mem_ast_walk.mpr hm)
    simp [this]

theorem mem_expensiveLabelsOf {s : String} {n : Node} :
    s ∈ expensiveLabelsOf n ↔
      (((∃ args, n = Node.call (Node.name s) args) ∧ s ∈ EXPENSIVE_FUNCS)
       ∨ (s = "sort()" ∧ ∃ v a args, n = Node.call (Node.attrAccess v a) args ∧ a = "sort")) := by
  cases n with
  | call fn args =>
    cases fn with
    | name id =>
      by_cases hid : id ∈ EXPENSIVE_FUNCS
      · simp [expensiveLabelsOf, hid]
        exact ⟨fun h => ⟨h.symm, h ▸ hid⟩, fun ⟨h, _⟩ => h.symm⟩
      · simp [expensiveLabelsOf, hid]
        rintro rfl
        exact hid
    | attrAccess v a =>
      by_cases ha : a = "sort"
      · subst ha
        simp [expensiveLabelsOf]
      · simp [expensiveLabelsOf, ha]
    | functionDef nm cs => simp [expensiveLabelsOf]
    | forLoop cs => simp [expensiveLabelsOf]
    | whileLoop cs => simp [expensiveLabelsOf]
    | call f2 a2 => simp [expensiveLabelsOf]
    | augAssign t op v => simp [expensiveLabelsOf]
    | other cs => simp [expensiveLabelsOf]
  | functionDef nm cs => simp [expensiveLabelsOf]
  | forLoop cs => simp [expensiveLabelsOf]
  | whileLoop cs => simp [expensiveLabelsOf]
  | attrAccess v a => simp [expensiveLabelsOf]
  | name id => simp [expensiveLabelsOf]
  | augAssign t op v => simp [expensiveLabelsOf]
  | other cs => simp [expensiveLabelsOf]

theorem mem_loopIssueLabelsOf {s : String} {c : Node} :
    s ∈ loopIssueLabelsOf c ↔
      ((∃ t v, c = Node.augAssign t Op.add v)
         ∧ s = "string concatenation in loop (+=)")
      ∨ ((∃ v args, c = Node.call (Node.attrAccess v "append") args)
         ∧ s = "list append in loop (.append)") := by
  cases c with
  | augAssign t op v =>
    cases op with
    | add => simp [loopIssueLabelsOf]
    | otherOp => simp [loopIssueLabelsOf]
  | call fn args =>
    cases fn with
    | attrAccess v a =>
      by_cases ha : a = "append"
      · subst ha
        simp [loopIssueLabelsOf]
      · simp [loopIssueLabelsOf, ha]
    | functionDef nm cs => simp [loopIssueLabelsOf]
    | forLoop cs => simp [loopIssueLabelsOf]
    | whileLoop cs => simp [loopIssueLabelsOf]
    | call f2 a2 => simp [loopIssueLabelsOf]
    | name id => simp [loopIssueLabelsOf]
    | augAssign t op v => simp [loopIssueLabelsOf]
    | other cs => simp [loopIssueLabelsOf]
  | functionDef nm cs => simp [loopIssueLabelsOf]
  | forLoop cs => simp [loopIssueLabelsOf]
  | whileLoop cs => simp [loopIssueLabelsOf]
  | attrAccess v a => simp [loopIssueLabelsOf]
  | name id => simp [loopIssueLabelsOf]
  | other cs => simp [loopIssueLabelsOf]

/-- A function subtree without loop nodes yields no loop issues. -/
theorem detect_loop_issues_nil (f : Node) (h : ∀ m ∈ ast_walk f, m.isLoop = false) :
    detect_loop_issues f = [] := by
  unfold detect_loop_issues
  have hflat : ((ast_walk f).flatMap fun n =>
      if n.isLoop then (ast_walk n).flatMap loopIssueLabelsOf else []) = [] := by
    apply List.flatMap_eq_nil_iff.mpr
    intro n hn
    simp [h n hn]
  rw [hflat]
  rfl

/-- Stability of the modelled sort: for every score value, the records with
that score appear in the sorted output exactly in their original order. -/
theorem insertionSort_filter_score (l : List Hotspot) (s : Nat) :
    (l.insertionSort scoreGE).filter (fun h => h.score == s)
      = l.filter (fun h => h.score == s) := by
  have hpw : (l.filter (fun h => h.score == s)).Pairwise scoreGE := by
    apply List.pairwise_of_forall_mem_list
    intro a ha b hb
    have ha2 : a.score = s := by simpa using (List.mem_filter.mp ha).2
    have hb2 : b.score = s := by simpa using (List.mem_filter.mp hb).2
    simp [scoreGE, ha2, hb2]
  have hsub : (l.filter (fun h => h.score == s)).Sublist (l.insertionSort scoreGE) :=
    List.sublist_insertionSort hpw (List.filter_sublist l)
  have hsub2 := hsub.filter (fun h => h.score == s)
  rw [List.filter_filter] at hsub2
  have hff : (List.filter (fun a => (a.score == s) && (a.score == s)) l)
      = l.filter (fun h => h.score == s) := by
    simp [Bool.and_self]
  rw [hff] at hsub2
  have hlen : ((l.insertionSort scoreGE).filter (fun h => h.score == s)).length
      = (l.filter (fun h => h.score == s)).length :=
    ((List.perm_insertionSort scoreGE l).filter _).length_eq
  exact (hsub2.eq_of_length hlen.symm).symm

theorem roundHalfEven_ge_floor (x : ℚ) : Int.floor x ≤ roundHalfEven x := by
  unfold roundHalfEven
  split_ifs <;> omega

theorem roundHalfEven_le_floor_add_one (x : ℚ) : roundHalfEven x ≤ Int.floor x + 1 := by
  unfold roundHalfEven
  split_ifs <;> omega

theorem roundHalfEven_mono {x y : ℚ} (h : x ≤ y) :
    roundHalfEven x ≤ roundHalfEven y := by
  have hf : Int.floor x ≤ Int.floor y := Int.floor_le_floor h
  rcases lt_or_eq_of_le hf with hlt | heq
  · calc roundHalfEven x ≤ Int.floor x + 1 := roundHalfEven_le_floor_add_one x
      _ ≤ Int.floor y := by omega
      _ ≤ roundHalfEven y := roundHalfEven_ge_floor y
  · unfold roundHalfEven
    rw [← heq]
    split_ifs <;> first | omega | linarith

theorem pyRound_mono {x y : ℚ} (n : ℕ) (h : x ≤ y) : pyRound x n ≤ pyRound y n := by
  unfold pyRound
  have h1 : x * 10 ^ n ≤ y * 10 ^ n := by
    apply mul_le_mul_of_nonneg_right h
    positivity
  have h3 : ((roundHalfEven (x * 10 ^ n) : ℚ)) ≤ (roundHalfEven (y * 10 ^ n) : ℚ) := by
    exact_mod_cast roundHalfEven_mono h1
  have hpos : (0:ℚ) < 10 ^ n := by positivity
  exact (div_le_div_iff_of_pos_right hpos).mpr h3

theorem estimated_joules_per_run_mono {s1 s2 : ℕ} (h : s1 ≤ s2) :
    estimated_joules_per_run s1 ≤ estimated_joules_per_run s2 := by
  unfold estimated_joules_per_run
  apply pyRound_mono
  have hc : (s1:ℚ) ≤ s2 := by exact_mod_cast h
  have hj : (0:ℚ) ≤ JOULES_PER_SCORE_POINT := by norm_num [JOULES_PER_SCORE_POINT]
  exact mul_le_mul_of_nonneg_right hc hj

theorem estimated_cost_per_run_mono {s1 s2 : ℕ} (h : s1 ≤ s2) :
    estimated_cost_per_run s1 ≤ estimated_cost_per_run s2 := by
  unfold estimated_cost_per_run
  have h1 := estimated_joules_per_run_mono h
  have h2 : estimated_joules_per_run s1 / 3600000
      ≤ estimated_joules_per_run s2 / 3600000 :=
    (div_le_div_iff_of_pos_right (by norm_num)).mpr h1
  have hr : (0:ℚ) ≤ ELECTRICITY_RATE_PER_KWH := by norm_num [ELECTRICITY_RATE_PER_KWH]
  exact mul_le_mul_of_nonneg_right h2 hr

theorem estimated_cost_per_1000_runs_mono {s1 s2 : ℕ} (h : s1 ≤ s2) :
    estimated_cost_per_1000_runs s1 ≤ estimated_cost_per_1000_runs s2 := by
  unfold estimated_cost_per_1000_runs
  exact pyRound_mono 6 (mul_le_mul_of_nonneg_right (estimated_cost_per_run_mono h) (by norm_num))

theorem estimated_cost_per_1m_runs_mono {s1 s2 : ℕ} (h : s1 ≤ s2) :
    estimated_cost_per_1m_runs s1 ≤ estimated_cost_per_1m_runs s2 := by
  unfold estimated_cost_per_1m_runs
  exact pyRound_mono 4 (mul_le_mul_of_nonneg_right (estimated_cost_per_run_mono h) (by norm_num))

/-- C1: for every analysed function the reported score equals
`min(100, loop_depth*12 + (20 if recursive) + 15*|expensive_calls|
+ 10*|loop_issues|)`; the score is bounded by 100; it is monotone in each
single signal; and a function with no loops, no recursion and no
expensive-call matches (hence also no loop-issue matches) gets score 0 and
an empty reasons list. -/
theorem claim_C1 :
    (∀ f : Node, (analyzeFunction f).score
        = min 100 (get_max_loop_depth f * 12 + (if is_recursive f then 20 else 0)
            + 15 * (detect_expensive_calls f).length
            + 10 * (detect_loop_issues f).length))
    ∧ (∀ f : Node, (analyzeFunction f).score ≤ 100)
    ∧ (∀ d d2 : Nat, ∀ r : Bool, ∀ ne ni : Nat, d ≤ d2 →
        compute_score d r ne ni ≤ compute_score d2 r ne ni)
    ∧ (∀ d ne ni : Nat, compute_score d false ne ni ≤ compute_score d true ne ni)
    ∧ (∀ d : Nat, ∀ r : Bool, ∀ ne ne2 ni : Nat, ne ≤ ne2 →
        compute_score d r ne ni ≤ compute_score d r ne2 ni)
    ∧ (∀ d : Nat, ∀ r : Bool, ∀ ne ni ni2 : Nat, ni ≤ ni2 →
        compute_score d r ne ni ≤ compute_score d r ne ni2)
    ∧ (∀ f : Node, (∀ m ∈ ast_walk f, m.isLoop = false) → is_recursive f = false →
        detect_expensive_calls f = [] →
        (analyzeFunction f).score = 0 ∧ (analyzeFunction f).reasons = []) := by
  refine ⟨?_, ?_, ?_, ?_, ?_, ?_, ?_⟩
  · intro f
    rcases Bool.eq_false_or_eq_true (is_recursive f) with hr | hr <;>
      simp [analyzeFunction, compute_score, hr] <;> omega
  · intro f
    simp [analyzeFunction, compute_score]
  · intro d d2 r ne ni h
    unfold compute_score
    omega
  · intro d ne ni
    simp [compute_score]
  · intro d r ne ne2 ni h
    unfold compute_score
    omega
  · intro d r ne ni ni2 h
    unfold compute_score
    omega
  · intro f h1 h2 h3
    have hd := get_max_loop_depth_zero f h1
    have hli := detect_loop_issues_nil f h1
    constructor
    · simp [analyzeFunction, compute_score, hd, h2, h3, hli]
    · simp [analyzeFunction, build_reasons, hd, h2, h3, hli]

/-- Witness for C1 at concrete inputs. -/
theorem claim_C1_witness :
    ((0:Nat) ≤ 3 ∧ compute_score 0 true 1 1 ≤ compute_score 3 true 1 1)
    ∧ compute_score 2 false 1 1 ≤ compute_score 2 true 1 1
    ∧ ((1:Nat) ≤ 2 ∧ compute_score 1 true 1 1 ≤ compute_score 1 true 2 1)
    ∧ ((1:Nat) ≤ 3 ∧ compute_score 1 true 2 1 ≤ compute_score 1 true 2 3)
    ∧ ((analyzeFunction exEmptyFn).score = 0 ∧ (analyzeFunction exEmptyFn).reasons = []) := by
  have hwalk : ∀ m ∈ ast_walk exEmptyFn, m.isLoop = false := by
    intro m hm
    simp [ast_walk, walkFrom_cons, walkFrom_nil, exEmptyFn, Node.children] at hm
    rcases hm with rfl | rfl <;> simp [Node.isLoop]
  have hrec : is_recursive exEmptyFn = false := by
    simp [is_recursive, ast_walk, walkFrom_cons, walkFrom_nil, exEmptyFn,
      Node.children, Node.funcName]
  have hexp : detect_expensive_calls exEmptyFn = [] := by
    simp [detect_expensive_calls, ast_walk, walkFrom_cons, walkFrom_nil, exEmptyFn,
      Node.children, expensiveLabelsOf]
  exact ⟨⟨by decide, claim_C1.2.2.1 0 3 true 1 1 (by decide)⟩,
    claim_C1.2.2.2.1 2 1 1,
    ⟨by decide, claim_C1.2.2.2.2.1 1 true 1 2 1 (by decide)⟩,
    ⟨by decide, claim_C1.2.2.2.2.2.1 1 true 2 1 3 (by decide)⟩,
    claim_C1.2.2.2.2.2.2 exEmptyFn hwalk hrec hexp⟩

/-- C2, counterexample: on a function calling `open(...)` the code labels
the category `"I/O"`, not `"IO"` as the claim states. -/
theorem claim_C2_counterexample :
    "open" ∈ detect_expensive_calls exOpenFn
    ∧ (analyzeFunction exOpenFn).category = "I/O"
    ∧ (analyzeFunction exOpenFn).category ≠ "IO" := by
  have hmem : "open" ∈ detect_expensive_calls exOpenFn := by
    simp [detect_expensive_calls, ast_walk, walkFrom_cons, walkFrom_nil, exOpenFn,
      Node.children, expensiveLabelsOf, EXPENSIVE_FUNCS]
  have hcat : (analyzeFunction exOpenFn).category = "I/O" := by
    simp [analyzeFunction, compute_category, hmem]
  refine ⟨hmem, hcat, ?_⟩
  rw [hcat]
  decide

/-- C2, amended: the category is the string `"I/O"` (not `"IO"`) exactly
when `"open"` is among the expensive calls, and `"CPU"` otherwise; it is a
function of the expensive-call labels alone, independent of loop depth,
recursion and sort usage (the second branch of the source is inert). -/
theorem claim_C2_amended :
    (∀ (d : Nat) (r : Bool) (exp : List String),
        compute_category d r exp = if "open" ∈ exp then "I/O" else "CPU")
    ∧ (∀ f : Node, ((analyzeFunction f).category = "I/O"
          ↔ "open" ∈ detect_expensive_calls f)
        ∧ ((analyzeFunction f).category = "CPU"
          ↔ "open" ∉ detect_expensive_calls f)) := by
  have hc : ∀ (d : Nat) (r : Bool) (exp : List String),
      compute_category d r exp = if "open" ∈ exp then "I/O" else "CPU" := by
    intro d r exp
    unfold compute_category
    split_ifs <;> rfl
  refine ⟨hc, fun f => ?_⟩
  have hcat : (analyzeFunction f).category
      = compute_category (get_max_loop_depth f) (is_recursive f)
          (detect_expensive_calls f) := rfl
  rw [hcat, hc]
  by_cases hmem : "open" ∈ detect_expensive_calls f
  · simp [hmem]
  · simp [hmem]

/-- C3, counterexample: a loop occurring only inside a nested function
definition does raise the loop depth of the enclosing function. -/
theorem claim_C3_counterexample :
    get_max_loop_depth exNestedFnLoop ≠ 0 ∧ get_max_loop_depth exNestedFnLoop = 1 := by
  have h : get_max_loop_depth exNestedFnLoop = 1 := by
    simp [get_max_loop_depth, visitMax_eq, maxL, Node.isLoop, Node.children,
      exNestedFnLoop]
  exact ⟨by simp [h], h⟩

/-- C3, amended: `get_max_loop_depth` computes the maximum number of
`For`/`While` nodes enclosing any point of the function subtree (entering
a loop increments the depth for that subtree only; conditionals and other
constructs pass it through; loops inside nested function definitions do
count toward the enclosing function), and a function with no loop nodes
anywhere yields depth 0. -/
theorem claim_C3_amended :
    (∀ f : Node, get_max_loop_depth f = loopNesting f)
    ∧ (∀ f : Node, (∀ m ∈ ast_walk f, m.isLoop = false) →
        get_max_loop_depth f = 0) :=
  ⟨get_max_loop_depth_eq, get_max_loop_depth_zero⟩

/-- Witness for the amended C3 at concrete inputs. -/
theorem claim_C3_amended_witness :
    get_max_loop_depth exThreeWhile = loopNesting exThreeWhile
    ∧ get_max_loop_depth exEmptyFn = 0 := by
  refine ⟨claim_C3_amended.1 exThreeWhile, claim_C3_amended.2 exEmptyFn ?_⟩
  intro m hm
  simp [ast_walk, walkFrom_cons, walkFrom_nil, exEmptyFn, Node.children] at hm
  rcases hm with rfl | rfl <;> simp [Node.isLoop]

/-- C4, counterexample: extraction follows the breadth-first order of
`ast.walk`, not depth-first pre-order — on a tree with a nested function
definition the two orders differ. -/
theorem claim_C4_counterexample :
    extract_functions exBfsTree ≠ (dfsPre exBfsTree).filter Node.isFunctionDef := by
  have h1 : extract_functions exBfsTree
      = [Node.functionDef "f" [Node.functionDef "h" []],
         Node.functionDef "g" [],
         Node.functionDef "h" []] := by
    simp [extract_functions, ast_walk, walkFrom_cons, walkFrom_nil, exBfsTree,
      Node.children, Node.isFunctionDef, List.filter]
  have h2 : (dfsPre exBfsTree).filter Node.isFunctionDef
      = [Node.functionDef "f" [Node.functionDef "h" []],
         Node.functionDef "h" [],
         Node.functionDef "g" []] := by
    simp [dfsPre_def, exBfsTree, Node.children, Node.isFunctionDef, List.filter]
  rw [h1, h2]
  simp

/-- C4, amended: extraction yields exactly one record per `FunctionDef`
node found anywhere in the tree (nested definitions included) — the same
multiset as a depth-first pre-order enumeration, but in breadth-first
order — and a tree without function definitions yields the empty
sequence. -/
theorem claim_C4_amended :
    (∀ tree : Node, (extract_functions tree).Perm
        ((dfsPre tree).filter Node.isFunctionDef))
    ∧ (∀ tree : Node, (∀ m ∈ ast_walk tree, m.isFunctionDef = false) →
        extract_functions tree = []) := by
  constructor
  · intro tree
    exact (ast_walk_perm tree).filter _
  · intro tree h
    unfold extract_functions
    exact List.filter_eq_nil_iff.mpr fun m hm => by simp [h m hm]

/-- Witness for the amended C4 at concrete inputs. -/
theorem claim_C4_amended_witness :
    (extract_functions exBfsTree).Perm ((dfsPre exBfsTree).filter Node.isFunctionDef)
    ∧ extract_functions exNoFnTree = [] := by
  refine ⟨claim_C4_amended.1 exBfsTree, claim_C4_amended.2 exNoFnTree ?_⟩
  intro m hm
  simp [ast_walk, walkFrom_cons, walkFrom_nil, exNoFnTree, Node.children] at hm
  rcases hm with rfl | rfl | rfl <;> simp [Node.isFunctionDef]

/-- C5: on every successful analysis the hotspot list is a permutation of
the per-function records, sorted by score descending, stable (records of
equal score keep their discovery order), and the summary counts satisfy
`function_count = number of extracted functions = hotspot_count`. -/
theorem claim_C5 (filename : String) (tree : Node) :
    (analyze filename (Except.ok tree)).hotspots.Perm
        ((extract_functions tree).map analyzeFunction)
    ∧ (analyze filename (Except.ok tree)).hotspots.Sorted scoreGE
    ∧ (∀ s : Nat, (analyze filename (Except.ok tree)).hotspots.filter
          (fun h => h.score == s)
        = ((extract_functions tree).map analyzeFunction).filter
            (fun h => h.score == s))
    ∧ (analyze filename (Except.ok tree)).summary.function_count
        = (extract_functions tree).length
    ∧ (analyze filename (Except.ok tree)).summary.hotspot_count
        = (analyze filename (Except.ok tree)).summary.function_count
    ∧ (analyze filename (Except.ok tree)).summary.hotspot_count
        = (analyze filename (Except.ok tree)).hotspots.length := by
  have hh : (analyze filename (Except.ok tree)).hotspots
      = ((extract_functions tree).map analyzeFunction).insertionSort scoreGE := rfl
  refine ⟨?_, ?_, ?_, rfl, ?_, rfl⟩
  · rw [hh]
    exact List.perm_insertionSort _ _
  · rw [hh]
    exact List.sorted_insertionSort _ _
  · intro s
    rw [hh]
    exact insertionSort_filter_score _ s
  · have h1 : (analyze filename (Except.ok tree)).summary.hotspot_count
        = (((extract_functions tree).map analyzeFunction).insertionSort scoreGE).length := rfl
    rw [h1, List.length_insertionSort, List.length_map]
    rfl

/-- C6: each parse-failure path returns a structured result with zero
counts, an empty hotspot list and the corresponding error string (the
syntax-error string carries line number and message), and the success path
carries no error value. -/
theorem claim_C6 :
    (∀ (fn : String) (lineno : Nat) (msg : String),
        analyze fn (Except.error (ParseFailure.syntaxError lineno msg)) =
          { summary := { filename := fn, function_count := 0, hotspot_count := 0 },
            hotspots := [],
            error := some ("SyntaxError at line " ++ toString lineno ++ ": " ++ msg) })
    ∧ (∀ (fn msg : String),
        analyze fn (Except.error (ParseFailure.generic msg)) =
          { summary := { filename := fn, function_count := 0, hotspot_count := 0 },
            hotspots := [],
            error := some ("Invalid Python code: " ++ msg) })
    ∧ (∀ (fn : String) (tree : Node),
        (analyze fn (Except.ok tree)).error = none) :=
  ⟨fun _ _ _ => rfl, fun _ _ => rfl, fun _ _ => rfl⟩

/-- C7: the expensive-call labels are duplicate-free and a label occurs
exactly when some walked `Call` node has a bare-identifier callee with
that name in `EXPENSIVE_FUNCS`, or the label is `"sort()"` and some walked
`Call` node goes through an attribute named `"sort"`. -/
theorem claim_C7 :
    (∀ f : Node, (detect_expensive_calls f).Nodup)
    ∧ (∀ (f : Node) (s : String), s ∈ detect_expensive_calls f ↔
        (((∃ args, Node.call (Node.name s) args ∈ ast_walk f) ∧ s ∈ EXPENSIVE_FUNCS)
         ∨ (s = "sort()" ∧ ∃ v a args,
              Node.call (Node.attrAccess v a) args ∈ ast_walk f ∧ a = "sort"))) := by
  constructor
  · intro f
    exact List.nodup_dedup _
  · intro f s
    unfold detect_expensive_calls
    rw [List.mem_dedup, List.mem_flatMap]
    constructor
    · rintro ⟨n, hn, hs⟩
      rcases mem_expensiveLabelsOf.mp hs with ⟨⟨args, rfl⟩, hexp⟩ | ⟨rfl, v, a, args, rfl, ha⟩
      · exact Or.inl ⟨⟨args, hn⟩, hexp⟩
      · exact Or.inr ⟨rfl, v, a, args, hn, ha⟩
    · rintro (⟨⟨args, hn⟩, hexp⟩ | ⟨rfl, v, a, args, hn, ha⟩)
      · exact ⟨_, hn, mem_expensiveLabelsOf.mpr (Or.inl ⟨⟨args, rfl⟩, hexp⟩)⟩
      · exact ⟨_, hn, mem_expensiveLabelsOf.mpr (Or.inr ⟨rfl, v, a, args, rfl, ha⟩)⟩

/-- C8: the loop-issue labels are duplicate-free; a label occurs exactly
when some walked loop node contains, anywhere in its own walk, an
augmented assignment with `Add` operator (string-concatenation label) or a
call through an attribute named `"append"` (list-append label); a function
without loops yields no loop issues. -/
theorem claim_C8 :
    (∀ f : Node, (detect_loop_issues f).Nodup)
    ∧ (∀ (f : Node) (s : String), s ∈ detect_loop_issues f ↔
        ∃ lp ∈ ast_walk f, lp.isLoop = true ∧ ∃ c ∈ ast_walk lp,
          (((∃ t v, c = Node.augAssign t Op.add v)
              ∧ s = "string concatenation in loop (+=)")
           ∨ ((∃ v args, c = Node.call (Node.attrAccess v "append") args)
              ∧ s = "list append in loop (.append)")))
    ∧ (∀ f : Node, (∀ m ∈ ast_walk f, m.isLoop = false) →
        detect_loop_issues f = []) := by
  refine ⟨fun f => List.nodup_dedup _, ?_, detect_loop_issues_nil⟩
  intro f s
  unfold detect_loop_issues
  rw [List.mem_dedup, List.mem_flatMap]
  constructor
  · rintro ⟨n, hn, hs⟩
    by_cases hl : n.isLoop = true
    · rw [if_pos hl] at hs
      rcases List.mem_flatMap.mp hs with ⟨c, hc, hcs⟩
      exact ⟨n, hn, hl, c, hc, mem_loopIssueLabelsOf.mp hcs⟩
    · rw [if_neg hl] at hs
      cases hs
  · rintro ⟨lp, hlp, hl, c, hc, hshape⟩
    refine ⟨lp, hlp, ?_⟩
    rw [if_pos hl]
    exact List.mem_flatMap.mpr ⟨c, hc, mem_loopIssueLabelsOf.mpr hshape⟩

/-- Witness for C8: a function with no loops yields no loop issues. -/
theorem claim_C8_witness : detect_loop_issues exEmptyFn = [] := by
  apply claim_C8.2.2 exEmptyFn
  intro m hm
  simp [ast_walk, walkFrom_cons, walkFrom_nil, exEmptyFn, Node.children] at hm
  rcases hm with rfl | rfl <;> simp [Node.isLoop]

/-- C9: a function definition is flagged recursive exactly when some
walked `Call` node has as callee a bare identifier equal to the own name
of the function; attribute-qualified calls, aliasing and indirect
recursion therefore never trigger the flag. -/
theorem claim_C9 (nm : String) (cs : List Node) :
    is_recursive (Node.functionDef nm cs) = true ↔
      ∃ args, Node.call (Node.name nm) args ∈ ast_walk (Node.functionDef nm cs) := by
  unfold is_recursive
  rw [List.any_eq_true]
  constructor
  · rintro ⟨n, hn, hp⟩
    cases n with
    | call fn args =>
      cases fn with
      | name id =>
        have hid : id = nm := by
          simpa [Node.funcName] using hp
        subst hid
        exact ⟨args, hn⟩
      | functionDef nm2 cs2 => simp at hp
      | forLoop cs2 => simp at hp
      | whileLoop cs2 => simp at hp
      | call f2 a2 => simp at hp
      | attrAccess v a => simp at hp
      | augAssign t op v => simp at hp
      | other cs2 => simp at hp
    | functionDef nm2 cs2 => simp at hp
    | forLoop cs2 => simp at hp
    | whileLoop cs2 => simp at hp
    | attrAccess v a => simp at hp
    | name id => simp at hp
    | augAssign t op v => simp at hp
    | other cs2 => simp at hp
  · rintro ⟨args, hargs⟩
    refine ⟨_, hargs, ?_⟩
    simp [Node.funcName]

/-- C10: the energy and cost figures satisfy exactly the stated rounding
formulas (with floats modelled as exact rationals and `round` as
round-half-to-even at the stated decimal position), and each figure is
monotonically non-decreasing in the score on `[0, 100]`. -/
theorem claim_C10 :
    (∀ score : ℕ, estimated_joules_per_run score = pyRound ((score : ℚ) * 0.05) 4)
    ∧ (∀ score : ℕ, estimated_cost_per_run score
        = estimated_joules_per_run score / 3600000 * 8.0)
    ∧ (∀ score : ℕ, estimated_cost_per_1000_runs score
        = pyRound (estimated_cost_per_run score * 1000) 6)
    ∧ (∀ score : ℕ, estimated_cost_per_1m_runs score
        = pyRound (estimated_cost_per_run score * 1000000) 4)
    ∧ (∀ s1 s2 : ℕ, s1 ≤ s2 → s2 ≤ 100 →
        estimated_joules_per_run s1 ≤ estimated_joules_per_run s2
        ∧ estimated_cost_per_run s1 ≤ estimated_cost_per_run s2
        ∧ estimated_cost_per_1000_runs s1 ≤ estimated_cost_per_1000_runs s2
        ∧ estimated_cost_per_1m_runs s1 ≤ estimated_cost_per_1m_runs s2) := by
  refine ⟨fun _ => rfl, fun _ => rfl, fun _ => rfl, fun _ => rfl, ?_⟩
  intro s1 s2 h hb
  exact ⟨estimated_joules_per_run_mono h, estimated_cost_per_run_mono h,
    estimated_cost_per_1000_runs_mono h, estimated_cost_per_1m_runs_mono h⟩

/-- Witness for C10 at concrete scores. -/
theorem claim_C10_witness :
    (0:ℕ) ≤ 34 ∧ (34:ℕ) ≤ 100
    ∧ estimated_joules_per_run 0 ≤ estimated_joules_per_run 34
    ∧ estimated_cost_per_run 0 ≤ estimated_cost_per_run 34
    ∧ estimated_cost_per_1000_runs 0 ≤ estimated_cost_per_1000_runs 34
    ∧ estimated_cost_per_1m_runs 0 ≤ estimated_cost_per_1m_runs 34 := by
  have h := claim_C10.2.2.2.2 0 34 (by decide) (by decide)
  exact ⟨by decide, by decide, h.1, h.2.1, h.2.2.1, h.2.2.2⟩

end EcoCode
